import Mathlib

set_option maxHeartbeats 1000000

/-!
Shallow embedding of the Blockchain_Python repository (files `exam.py` and
`merkle9chain.py`): proof-of-work blocks, Merkle aggregation over block
hashes, per-chain validation, and the multi-replica network simulation.
The SHA-256 digest is abstracted as a parameter `H : String → String`;
`time.time()` is abstracted as an explicit clock value threaded through
construction; the unbounded mining loop and the Merkle while-loop are
embedded with explicit fuel (the Merkle loop's fuel equal to the level
length is always sufficient, see `merkleLevels_stable`).
-/

structure Block where
  index : Nat
  timestamp : Nat
  data : String
  previous_hash : String
  nonce : Nat
  hash : String
deriving DecidableEq

/-- The pattern `"0" * difficulty` of required leading zeros. -/
def zeroTarget (difficulty : Nat) : String :=
  String.mk (List.replicate difficulty '0')

/-- Python's `str.startswith`, modelled on the character sequences. -/
def strStartsWith (s pat : String) : Bool :=
  pat.data.isPrefixOf s.data

/-- Source `Block.calculate_hash`: digest of the concatenated rendering of
`index`, `timestamp`, `data`, `previous_hash`, `nonce` (the stored `hash`
is not part of the content). -/
def Block.calculate_hash (H : String → String) (b : Block) : String :=
  H (toString b.index ++ toString b.timestamp ++ b.data ++ b.previous_hash ++ toString b.nonce)

/-- Source `Block.mine_block`: try the current nonce; on a digest with the
required leading zeros store it as `hash`, otherwise increment `nonce`
and retry, with explicit fuel for the unbounded `while True`. -/
def Block.mine_block (H : String → String) (difficulty : Nat) : Nat → Block → Option Block
  | 0, _ => none
  | fuel + 1, b =>
    let hash_attempt := Block.calculate_hash H b
    if strStartsWith hash_attempt (zeroTarget difficulty) then
      some { b with hash := hash_attempt }
    else
      Block.mine_block H difficulty fuel { b with nonce := b.nonce + 1 }

/-- Source `Block.__init__`: fields fixed, `nonce = 0`, then mined to completion. -/
def Block.construct (H : String → String) (fuel : Nat) (index timestamp : Nat)
    (data previous_hash : String) (difficulty : Nat) : Option Block :=
  Block.mine_block H difficulty fuel
    { index := index, timestamp := timestamp, data := data,
      previous_hash := previous_hash, nonce := 0, hash := "" }

namespace MerkleTree

/-- Odd-length level: duplicate the last element (`current_level.append(current_level[-1])`);
the default of `getLastD` is never used because every call site has a nonempty level. -/
def padLevel (level : List String) : List String :=
  if level.length % 2 = 1 then level ++ [level.getLastD ""] else level

/-- One pairwise reduction pass: hash the in-order concatenation of each
adjacent pair. -/
def pairUp (H : String → String) : List String → List String
  | a :: b :: rest => H (a ++ b) :: pairUp H rest
  | level => level

/-- The `while len(current_level) > 1` loop with explicit fuel; fuel equal
to the level length always suffices since each pass at least halves. -/
def merkleLevels (H : String → String) : Nat → List String → List String
  | 0, level => level
  | fuel + 1, level =>
    if 1 < level.length then merkleLevels H fuel (pairUp H (padLevel level)) else level

/-- Source `MerkleTree.calculate_merkle_root`: `None` on empty input, otherwise the
single element left by the reduction loop. -/
def calculate_merkle_root (H : String → String) (hashes : List String) : Option String :=
  match hashes with
  | [] => none
  | _ :: _ => (merkleLevels H hashes.length hashes).head?

end MerkleTree

structure Blockchain where
  difficulty : Nat
  chain : List Block
  merkle_root : Option String
deriving DecidableEq

/-- Source `Blockchain.create_genesis_block`. -/
def Blockchain.create_genesis_block (H : String → String) (fuel timestamp difficulty : Nat) :
    Option Block :=
  Block.construct H fuel 0 timestamp "Genesis Block" "0" difficulty

/-- Source `Blockchain.__init__`: genesis only, `merkle_root = None`. -/
def Blockchain.construct (H : String → String) (fuel timestamp difficulty : Nat) :
    Option Blockchain :=
  (Blockchain.create_genesis_block H fuel timestamp difficulty).map
    (fun g => { difficulty := difficulty, chain := [g], merkle_root := none })

/-- Source `Blockchain.add_block`: a new block at `index = len(chain)` linked to the
last block's hash, mined, then appended.  `chain[-1]` on an empty chain is a
Python `IndexError`, hence `none`. -/
def Blockchain.add_block (H : String → String) (fuel timestamp : Nat)
    (bc : Blockchain) (data : String) : Option Blockchain :=
  match bc.chain.getLast? with
  | none => none
  | some last =>
    (Block.construct H fuel bc.chain.length timestamp data last.hash bc.difficulty).map
      (fun b => { bc with chain := bc.chain ++ [b] })

/-- Source `Blockchain.compute_merkle_root`: recompute and cache the root of the
current block-hash sequence. -/
def Blockchain.compute_merkle_root (H : String → String) (bc : Blockchain) : Blockchain :=
  { bc with merkle_root := MerkleTree.calculate_merkle_root H (bc.chain.map Block.hash) }

/-- The kinds of per-block findings reported by validation. -/
inductive Finding
  | hashInvalid
  | linkInvalid
  | powInvalid
deriving DecidableEq

namespace Exam

/-- The validation loop of `exam.py`'s `is_chain_valid`: walk adjacent pairs,
returning at the FIRST failing check (the `return False` short-circuit),
reporting `current.index` as the block number just as the print does. -/
def firstFinding (H : String → String) (z : String) : List Block → Option (Nat × Finding)
  | prev :: cur :: rest =>
    if cur.hash ≠ Block.calculate_hash H cur then some (cur.index, Finding.hashInvalid)
    else if cur.previous_hash ≠ prev.hash then some (cur.index, Finding.linkInvalid)
    else if ¬ (strStartsWith cur.hash z) then some (cur.index, Finding.powInvalid)
    else firstFinding H z (cur :: rest)
  | _ => none

/-- Source `exam.py` `Blockchain.is_chain_valid`: false at the first per-block
failure; otherwise valid iff the recomputed Merkle root equals the cache. -/
def is_chain_valid (H : String → String) (bc : Blockchain) : Bool :=
  match firstFinding H (zeroTarget bc.difficulty) bc.chain with
  | some _ => false
  | none =>
    decide (MerkleTree.calculate_merkle_root H (bc.chain.map Block.hash) = bc.merkle_root)

/-- The per-block findings `exam.py`'s validation actually reports (at most
the first one, because of the early `return False`). -/
def findings (H : String → String) (bc : Blockchain) : List (Nat × Finding) :=
  (firstFinding H (zeroTarget bc.difficulty) bc.chain).toList

/-- Here `exam.py`'s aggregator works on a copy (`current_level = hashes[:]`), so
the caller's list is returned unchanged alongside the root. -/
def calculate_merkle_root_run (H : String → String) (hashes : List String) :
    Option String × List String :=
  (MerkleTree.calculate_merkle_root H hashes, hashes)

end Exam

namespace M9

/-- The validation loop of `merkle9chain.py`'s `is_chain_valid`: walk adjacent
pairs accumulating ALL findings, tagged with the loop position `i`. -/
def invalid_blocksAux (H : String → String) (z : String) (i : Nat) :
    List Block → List (Nat × Finding)
  | prev :: cur :: rest =>
    (if cur.hash ≠ Block.calculate_hash H cur then [(i, Finding.hashInvalid)] else []) ++
    (if cur.previous_hash ≠ prev.hash then [(i, Finding.linkInvalid)] else []) ++
    (if ¬ (strStartsWith cur.hash z) then [(i, Finding.powInvalid)] else []) ++
    invalid_blocksAux H z (i + 1) (cur :: rest)
  | _ => []

/-- The `invalid_blocks` list of `merkle9chain.py`'s `is_chain_valid`. -/
def invalid_blocks (H : String → String) (bc : Blockchain) : List (Nat × Finding) :=
  invalid_blocksAux H (zeroTarget bc.difficulty) 1 bc.chain

/-- Source `merkle9chain.py` `Blockchain.is_chain_valid`: the verdict depends only on
`invalid_blocks`; the Merkle-root comparison merely prints a warning and does
not influence the returned boolean. -/
def is_chain_valid (H : String → String) (bc : Blockchain) : Bool :=
  (invalid_blocks H bc).isEmpty

/-- Here `merkle9chain.py`'s aggregator receives the caller's list itself: on the
first loop iteration an odd level is padded IN PLACE (visible to the caller),
after which `hashes` is rebound to fresh levels.  Returns the root together
with the caller-visible final list. -/
def calculate_merkle_root_run (H : String → String) (hashes : List String) :
    Option String × List String :=
  match hashes with
  | [] => (none, hashes)
  | [x] => (some x, hashes)
  | _ :: _ :: _ =>
    let shared := MerkleTree.padLevel hashes
    let next := MerkleTree.pairUp H shared
    ((MerkleTree.merkleLevels H next.length next).head?, shared)

end M9

structure Network where
  nodes : List Blockchain
  difficulty : Nat
deriving DecidableEq

/-- The eight payloads `"Donnée #1"` … `"Donnée #8"` appended by
`Network.__init__`. -/
def donneeLabels : List String :=
  (List.range 8).map (fun j => "Donnée #" ++ toString (j + 1))

/-- Append the given payloads in order, one clock tick per block. -/
def Network.addBlocks (H : String → String) (fuel : Nat) :
    List String → Blockchain × Nat → Option (Blockchain × Nat)
  | [], st => some st
  | d :: rest, (bc, clock) =>
    match Blockchain.add_block H fuel clock bc d with
    | none => none
    | some bc2 => Network.addBlocks H fuel rest (bc2, clock + 1)

/-- Build one replica as `Network.__init__` does: fresh chain, eight appended
blocks, Merkle root computed and cached. -/
def Network.buildNode (H : String → String) (fuel difficulty clock : Nat) :
    Option (Blockchain × Nat) :=
  match Blockchain.construct H fuel clock difficulty with
  | none => none
  | some bc =>
    match Network.addBlocks H fuel donneeLabels (bc, clock + 1) with
    | none => none
    | some (bc2, clock2) => some (Blockchain.compute_merkle_root H bc2, clock2)

/-- Build `n` replicas in sequence, threading the clock. -/
def Network.buildNodes (H : String → String) (fuel difficulty : Nat) :
    Nat → Nat → Option (List Blockchain × Nat)
  | 0, clock => some ([], clock)
  | n + 1, clock =>
    match Network.buildNode H fuel difficulty clock with
    | none => none
    | some (bc, clock2) =>
      match Network.buildNodes H fuel difficulty n clock2 with
      | none => none
      | some (rest, clock3) => some (bc :: rest, clock3)

/-- Source `Network.__init__`: the `assert node_count % 2 == 1` fires before any
replica is built (even count yields no Network value at all). -/
def Network.construct (H : String → String) (fuel node_count difficulty clock : Nat) :
    Option Network :=
  if node_count % 2 = 1 then
    match Network.buildNodes H fuel difficulty node_count clock with
    | none => none
    | some (nodes, _) => some { nodes := nodes, difficulty := difficulty }
  else none

/-- Source `Network.majority_vote`: count replicas whose `is_chain_valid` (the
`exam.py` one) is true; true iff strictly more than `len // 2`. -/
def Network.majority_vote (H : String → String) (net : Network) : Bool :=
  let valides := net.nodes.countP (fun bc => Exam.is_chain_valid H bc)
  decide (valides > net.nodes.length / 2)

/-- The tampering applied to one targeted block: overwrite `data` with the
fixed marker, then recompute the digest of the NEW content into `hash`
without re-mining (nonce untouched). -/
def tamperBlock (H : String → String) (b : Block) : Block :=
  let b1 := { b with data := "FALSIFIED DATA" }
  { b1 with hash := Block.calculate_hash H b1 }

/-- One step of the inner loop of `corrupt_nodes`: the explicit
`0 <= bidx < len(bc.chain)` range check makes an out-of-range block index a
no-op. -/
def falsifyStep (H : String → String) (c : List Block) (bidx : Nat) : List Block :=
  match c.get? bidx with
  | none => c
  | some b => c.set bidx (tamperBlock H b)

/-- The inner loop of `corrupt_nodes` over all targeted block positions. -/
def falsifyBlocks (H : String → String) (blocks_to_corrupt : List Nat)
    (c : List Block) : List Block :=
  blocks_to_corrupt.foldl (falsifyStep H) c

/-- The per-replica body of `corrupt_nodes`: tamper the targeted blocks, then
recompute and re-cache the replica's Merkle root. -/
def Network.corrupt_one (H : String → String) (blocks_to_corrupt : List Nat)
    (bc : Blockchain) : Blockchain :=
  Blockchain.compute_merkle_root H { bc with chain := falsifyBlocks H blocks_to_corrupt bc.chain }

/-- Source `Network.corrupt_nodes`: `self.nodes[idx]` raises an uncaught `IndexError`
for an out-of-range replica index; `Except.error` carries the network state at
the moment of the raise (earlier targets already corrupted). -/
def Network.corrupt_nodes (H : String → String) (blocks_to_corrupt : List Nat) :
    List Nat → Network → Except Network Network
  | [], net => Except.ok net
  | idx :: rest, net =>
    match net.nodes.get? idx with
    | none => Except.error net
    | some bc =>
      Network.corrupt_nodes H blocks_to_corrupt rest
        { net with nodes := net.nodes.set idx (Network.corrupt_one H blocks_to_corrupt bc) }

/-- The three per-block checks shared by both validators, as a predicate. -/
def blockOk (H : String → String) (z : String) (prev cur : Block) : Prop :=
  cur.hash = Block.calculate_hash H cur ∧
  cur.previous_hash = prev.hash ∧
  strStartsWith cur.hash z = true

/-- Which finding a given adjacent pair triggers. -/
def findingAt (H : String → String) (z : String) (prev cur : Block) : Finding → Prop
  | Finding.hashInvalid => cur.hash ≠ Block.calculate_hash H cur
  | Finding.linkInvalid => cur.previous_hash ≠ prev.hash
  | Finding.powInvalid => ¬ (strStartsWith cur.hash z = true)

instance (H : String → String) (z : String) (prev cur : Block) :
    DecidablePred (findingAt H z prev cur) := by
  intro f
  cases f <;> simp [findingAt] <;> infer_instance

/-! ### Concrete fixtures for closed witnesses and counterexamples -/

/-- A concrete stand-in digest function (constant). -/
def Hk : String → String := fun _ => "k"

/-- A block whose stored hash is the (made-up) digest `"x0"`. -/
def bA : Block :=
  { index := 0, timestamp := 0, data := "g", previous_hash := "0", nonce := 0, hash := "x0" }

/-- A block linked to `bA` whose stored hash does not match its content. -/
def bB : Block :=
  { index := 1, timestamp := 0, data := "d1", previous_hash := "x0", nonce := 0, hash := "x1" }

/-- A block linked to `bB` whose stored hash does not match its content. -/
def bC : Block :=
  { index := 2, timestamp := 0, data := "d2", previous_hash := "x1", nonce := 0, hash := "x2" }

/-- A length-1 chain whose Merkle cache is stale (`None`). -/
def bcSingle : Blockchain := { difficulty := 0, chain := [bA], merkle_root := none }

/-- A chain in which blocks 1 and 2 both fail the hash check. -/
def bcTwoBad : Blockchain := { difficulty := 0, chain := [bA, bB, bC], merkle_root := none }

/-- A length-1 chain whose Merkle cache is up to date, hence valid. -/
def bcValid : Blockchain := { difficulty := 0, chain := [bA], merkle_root := some "x0" }

/-- A one-replica network holding `bcValid`. -/
def netOne : Network := { nodes := [bcValid], difficulty := 0 }

/-- The block mined (at difficulty 0, instantly) by `Block.construct Hk 1 0 0 "d" "0" 0`. -/
def bW : Block :=
  { index := 0, timestamp := 0, data := "d", previous_hash := "0", nonce := 0, hash := "k" }

/-- The genesis block mined (at difficulty 0) with digest function `Hk`. -/
def gW : Block :=
  { index := 0, timestamp := 0, data := "Genesis Block", previous_hash := "0", nonce := 0,
    hash := "k" }

/-- The freshly constructed chain `Blockchain.construct Hk 1 0 0`. -/
def bcG : Blockchain := { difficulty := 0, chain := [gW], merkle_root := none }

/-! ### Helper lemmas about the Merkle reduction loop -/

theorem MerkleTree.pairUp_length (H : String → String) :
    ∀ l : List String, (MerkleTree.pairUp H l).length = (l.length + 1) / 2
  | [] => by simp [MerkleTree.pairUp]
  | [_] => by simp [MerkleTree.pairUp]
  | _ :: _ :: rest => by
    simp [MerkleTree.pairUp, MerkleTree.pairUp_length H rest]
    omega

theorem MerkleTree.padLevel_length (l : List String) :
    (MerkleTree.padLevel l).length =
      if l.length % 2 = 1 then l.length + 1 else l.length := by
  unfold MerkleTree.padLevel
  split <;> simp

theorem MerkleTree.next_length_lt (H : String → String) (l : List String)
    (h : 1 < l.length) :
    (MerkleTree.pairUp H (MerkleTree.padLevel l)).length < l.length := by
  rw [MerkleTree.pairUp_length, MerkleTree.padLevel_length]
  split <;> omega

/-- Any fuel at least the level length gives the same result as any other:
fuel equal to the level length fully simulates the unbounded
`while len(current_level) > 1` loop. -/
theorem MerkleTree.merkleLevels_stable (H : String → String) :
    ∀ f g : Nat, ∀ l : List String, l.length ≤ f → l.length ≤ g →
      MerkleTree.merkleLevels H f l = MerkleTree.merkleLevels H g l := by
  intro f
  induction f with
  | zero =>
    intro g l hf _
    have : l = [] := List.eq_nil_of_length_eq_zero (Nat.le_zero.mp hf)
    subst this
    cases g <;> simp [MerkleTree.merkleLevels]
  | succ f ih =>
    intro g l hf hg
    cases g with
    | zero =>
      have : l = [] := List.eq_nil_of_length_eq_zero (Nat.le_zero.mp hg)
      subst this
      simp [MerkleTree.merkleLevels]
    | succ g =>
      simp only [MerkleTree.merkleLevels]
      split
      · next h =>
        exact ih g _ (by have := MerkleTree.next_length_lt H l h; omega)
          (by have := MerkleTree.next_length_lt H l h; omega)
      · rfl

/-! ### Claim theorems -/

/-- C5: the Merkle aggregator hashes the in-order concatenation of a pair,
`root([a,b]) = Hasher(a+b)`, and an odd-length level duplicates its last
element before pairwise reduction, `root([a,b,c]) = root([a,b,c,c])`. -/
theorem merkle_pair_and_odd_padding (H : String → String) (a b c : String) :
    MerkleTree.calculate_merkle_root H [a, b] = some (H (a ++ b)) ∧
    MerkleTree.calculate_merkle_root H [a, b, c] =
      MerkleTree.calculate_merkle_root H [a, b, c, c] := by
  constructor <;>
    simp [MerkleTree.calculate_merkle_root, MerkleTree.merkleLevels,
      MerkleTree.padLevel, MerkleTree.pairUp]

/-- The stored hash is not part of the hashed content. -/
theorem Block.calculate_hash_hash_irrel (H : String → String) (b : Block) (h : String) :
    Block.calculate_hash H { b with hash := h } = Block.calculate_hash H b := rfl

/-- Whenever the mining loop terminates, the resulting block's stored hash is
the digest of its own content, has the difficulty's leading zeros, and every
field other than `nonce` and `hash` is the one the block started with. -/
theorem Block.mine_block_spec (H : String → String) (difficulty : Nat) :
    ∀ fuel : Nat, ∀ b0 b : Block, Block.mine_block H difficulty fuel b0 = some b →
      b.hash = Block.calculate_hash H b ∧
      strStartsWith b.hash (zeroTarget difficulty) = true ∧
      b.index = b0.index ∧ b.timestamp = b0.timestamp ∧
      b.data = b0.data ∧ b.previous_hash = b0.previous_hash := by
  intro fuel
  induction fuel with
  | zero =>
    intro b0 b h
    simp [Block.mine_block] at h
  | succ fuel ih =>
    intro b0 b h
    simp only [Block.mine_block] at h
    split at h
    · next hs =>
      cases h
      refine ⟨rfl, hs, rfl, rfl, rfl, rfl⟩
    · next =>
      have hr := ih _ _ h
      exact ⟨hr.1, hr.2.1, hr.2.2.1, hr.2.2.2.1, hr.2.2.2.2.1, hr.2.2.2.2.2⟩

/-- C6: at construction completion (whenever mining terminates) a block's
stored hash equals the digest recomputed from
(index, timestamp, data, previous_hash, nonce) and starts with `difficulty`
zero characters; index, timestamp, data and previous_hash are exactly the
constructor arguments, mining having touched only `nonce` and `hash`. -/
theorem block_mining_invariant (H : String → String) (fuel index timestamp : Nat)
    (data previous_hash : String) (difficulty : Nat) (b : Block)
    (h : Block.construct H fuel index timestamp data previous_hash difficulty = some b) :
    b.hash = Block.calculate_hash H b ∧
    strStartsWith b.hash (zeroTarget difficulty) = true ∧
    b.index = index ∧ b.timestamp = timestamp ∧ b.data = data ∧
    b.previous_hash = previous_hash :=
  Block.mine_block_spec H difficulty fuel _ b h

/-- Witness for C6 at difficulty 0 with the concrete digest `Hk`. -/
theorem block_mining_invariant_witness :
    Block.construct Hk 1 0 0 "d" "0" 0 = some bW ∧
    (bW.hash = Block.calculate_hash Hk bW ∧
     strStartsWith bW.hash (zeroTarget 0) = true ∧
     bW.index = 0 ∧ bW.timestamp = 0 ∧ bW.data = "d" ∧ bW.previous_hash = "0") :=
  ⟨by decide, block_mining_invariant Hk 1 0 0 "d" "0" 0 bW (by decide)⟩

/-- C7: a freshly constructed chain has exactly its genesis block, zero
per-block findings under both validators, and the Merkle root recomputed
over its hash sequence is precisely the genesis block's hash. -/
theorem genesis_chain_validity (H : String → String) (fuel timestamp difficulty : Nat)
    (bc : Blockchain) (h : Blockchain.construct H fuel timestamp difficulty = some bc) :
    ∃ g : Block, bc.chain = [g] ∧
      M9.invalid_blocks H bc = [] ∧
      Exam.findings H bc = [] ∧
      MerkleTree.calculate_merkle_root H (bc.chain.map Block.hash) = some g.hash := by
  unfold Blockchain.construct Blockchain.create_genesis_block at h
  cases hg : Block.construct H fuel 0 timestamp "Genesis Block" "0" difficulty with
  | none => rw [hg] at h; simp at h
  | some g =>
    rw [hg] at h
    simp only [Option.map_some'] at h
    cases h
    refine ⟨g, rfl, ?_, ?_, ?_⟩
    · unfold M9.invalid_blocks M9.invalid_blocksAux
      rfl
    · unfold Exam.findings Exam.firstFinding
      rfl
    · simp [MerkleTree.calculate_merkle_root, MerkleTree.merkleLevels]

/-- Witness for C7 at difficulty 0 with the concrete digest `Hk`. -/
theorem genesis_chain_validity_witness :
    Blockchain.construct Hk 1 0 0 = some bcG ∧
    (∃ g : Block, bcG.chain = [g] ∧
      M9.invalid_blocks Hk bcG = [] ∧
      Exam.findings Hk bcG = [] ∧
      MerkleTree.calculate_merkle_root Hk (bcG.chain.map Block.hash) = some g.hash) :=
  ⟨by decide, genesis_chain_validity Hk 1 0 0 bcG (by decide)⟩

/-- C4: with an odd replica count, `majority_vote` is true iff the number of
valid replicas strictly exceeds `len // 2`, which for odd counts is exactly
"strictly more than half", and a tie is impossible. -/
theorem majority_vote_strict_majority (H : String → String) (net : Network)
    (hodd : net.nodes.length % 2 = 1) :
    (Network.majority_vote H net = true ↔
      net.nodes.countP (fun bc => Exam.is_chain_valid H bc) > net.nodes.length / 2) ∧
    (net.nodes.countP (fun bc => Exam.is_chain_valid H bc) > net.nodes.length / 2 ↔
      2 * net.nodes.countP (fun bc => Exam.is_chain_valid H bc) > net.nodes.length) ∧
    2 * net.nodes.countP (fun bc => Exam.is_chain_valid H bc) ≠ net.nodes.length := by
  have hle : net.nodes.countP (fun bc => Exam.is_chain_valid H bc) ≤ net.nodes.length :=
    List.countP_le_length _
  refine ⟨?_, by omega, by omega⟩
  simp only [Network.majority_vote]
  exact decide_eq_true_iff

/-- Witness for C4 on the concrete one-replica network `netOne`. -/
theorem majority_vote_strict_majority_witness :
    netOne.nodes.length % 2 = 1 ∧
    ((Network.majority_vote Hk netOne = true ↔
       netOne.nodes.countP (fun bc => Exam.is_chain_valid Hk bc) > netOne.nodes.length / 2) ∧
     (netOne.nodes.countP (fun bc => Exam.is_chain_valid Hk bc) > netOne.nodes.length / 2 ↔
       2 * netOne.nodes.countP (fun bc => Exam.is_chain_valid Hk bc) > netOne.nodes.length) ∧
     2 * netOne.nodes.countP (fun bc => Exam.is_chain_valid Hk bc) ≠ netOne.nodes.length) :=
  ⟨by decide, majority_vote_strict_majority Hk netOne (by decide)⟩

/-- Unfolding one pass of the reduction loop at the canonical fuel. -/
theorem MerkleTree.merkleLevels_unfold (H : String → String) (f : Nat) (l : List String)
    (hf : l.length ≤ f + 1) (h : 1 < l.length) :
    MerkleTree.merkleLevels H (f + 1) l =
      MerkleTree.merkleLevels H (MerkleTree.pairUp H (MerkleTree.padLevel l)).length
        (MerkleTree.pairUp H (MerkleTree.padLevel l)) := by
  simp only [MerkleTree.merkleLevels]
  rw [if_pos h]
  exact MerkleTree.merkleLevels_stable H f _ _
    (by have := MerkleTree.next_length_lt H l h; omega) le_rfl

/-- Both files compute the same root value. -/
theorem M9.run_root_eq (H : String → String) (l : List String) :
    (M9.calculate_merkle_root_run H l).1 = MerkleTree.calculate_merkle_root H l := by
  match l with
  | [] => rfl
  | [x] =>
    simp [M9.calculate_merkle_root_run, MerkleTree.calculate_merkle_root,
      MerkleTree.merkleLevels]
  | a :: b :: rest =>
    have h2 : 1 < (a :: b :: rest).length := by simp
    simp only [M9.calculate_merkle_root_run, MerkleTree.calculate_merkle_root]
    congr 1
    rw [show (a :: b :: rest).length = rest.length + 1 + 1 by simp]
    exact (MerkleTree.merkleLevels_unfold H (rest.length + 1) (a :: b :: rest)
      (by simp) h2).symm

/-- C8 (amended): both aggregators are deterministic and compute the same
root; `exam.py`'s copy-based aggregator leaves the caller's sequence
unchanged, while `merkle9chain.py`'s appends a duplicate of the last element
to the caller's sequence exactly when the input length is odd and greater
than one. -/
theorem merkle_aggregator_purity (H : String → String) (l : List String) :
    (Exam.calculate_merkle_root_run H l).2 = l ∧
    (Exam.calculate_merkle_root_run H l).1 = MerkleTree.calculate_merkle_root H l ∧
    (M9.calculate_merkle_root_run H l).1 = MerkleTree.calculate_merkle_root H l ∧
    (M9.calculate_merkle_root_run H l).2 =
      (if 1 < l.length ∧ l.length % 2 = 1 then l ++ [l.getLastD ""] else l) := by
  refine ⟨rfl, rfl, M9.run_root_eq H l, ?_⟩
  match l with
  | [] => simp [M9.calculate_merkle_root_run]
  | [x] => simp [M9.calculate_merkle_root_run]
  | a :: b :: rest =>
    have h2 : 1 < (a :: b :: rest).length := by simp
    simp only [M9.calculate_merkle_root_run, MerkleTree.padLevel]
    by_cases hodd : (a :: b :: rest).length % 2 = 1 <;> simp [hodd, h2]

/-- Counterexample to C8 as stated: on the odd-length input `[a,b,c]`,
`merkle9chain.py`'s aggregator leaves the caller's list grown to
`[a,b,c,c]`, so the aggregator is not free of side effects on its input. -/
theorem m9_merkle_mutates_caller_list :
    (M9.calculate_merkle_root_run Hk ["a", "b", "c"]).2 = ["a", "b", "c", "c"] ∧
    ["a", "b", "c", "c"] ≠ ["a", "b", "c"] := by decide

theorem mem_ite_singleton {α : Type} (a x : α) (A : Prop) [Decidable A] :
    (a ∈ if A then [x] else []) ↔ (A ∧ a = x) := by
  split <;> simp_all

/-- A pair passes all three checks iff it triggers no finding. -/
theorem blockOk_iff_no_finding (H : String → String) (z : String) (prev cur : Block) :
    blockOk H z prev cur ↔ ∀ f : Finding, ¬ findingAt H z prev cur f := by
  constructor
  · rintro ⟨e1, e2, e3⟩ f
    cases f
    · simp [findingAt, e1]
    · simp [findingAt, e2]
    · simp [findingAt, e3]
  · intro h
    refine ⟨?_, ?_, ?_⟩
    · have := h Finding.hashInvalid
      simp [findingAt] at this
      exact this
    · have := h Finding.linkInvalid
      simp [findingAt] at this
      exact this
    · have := h Finding.powInvalid
      simp [findingAt] at this
      exact this

/-- Quantifying over indices `i ≥ 1` with the pair `(i-1, i)` is the same as
quantifying over adjacent positions `(j, j+1)`. -/
theorem pairs_shift (l : List Block) (Q : Block → Block → Prop) :
    (∀ i : Nat, 1 ≤ i → ∀ prev cur : Block,
        l.get? (i - 1) = some prev → l.get? i = some cur → Q prev cur) ↔
    (∀ j : Nat, ∀ prev cur : Block,
        l.get? j = some prev → l.get? (j + 1) = some cur → Q prev cur) := by
  constructor
  · intro h j prev cur hp hc
    exact h (j + 1) (by omega) prev cur (by simpa using hp) hc
  · intro h i hi prev cur hp hc
    obtain ⟨j, rfl⟩ : ∃ j, i = j + 1 := ⟨i - 1, by omega⟩
    exact h j prev cur (by simpa using hp) hc

/-- `exam.py`'s loop reports nothing iff every adjacent pair passes all
three checks. -/
theorem Exam.firstFinding_eq_none_iff (H : String → String) (z : String) :
    ∀ l : List Block, (Exam.firstFinding H z l = none ↔
      (∀ j : Nat, ∀ prev cur : Block,
        l.get? j = some prev → l.get? (j + 1) = some cur → blockOk H z prev cur))
  | [] => by simp [Exam.firstFinding]
  | [x] => by simp [Exam.firstFinding]
  | p :: c :: rest => by
    have IH := Exam.firstFinding_eq_none_iff H z (c :: rest)
    simp only [Exam.firstFinding]
    constructor
    · intro h j prev cur hp hc
      split_ifs at h with h1 h2 h3
      cases j with
      | zero =>
        simp only [List.get?_cons_zero, Option.some.injEq] at hp
        have hcc : c = cur := by simpa using hc
        subst hp
        subst hcc
        exact ⟨not_not.mp h1, not_not.mp h2, by simpa using h3⟩
      | succ j =>
        exact IH.mp h j prev cur (by simpa using hp) (by simpa using hc)
    · intro hall
      obtain ⟨e1, e2, e3⟩ := hall 0 p c rfl rfl
      rw [if_neg (by simp [e1]), if_neg (by simp [e2]), if_neg (by simp [e3])]
      exact IH.mpr (fun j prev cur hp hc =>
        hall (j + 1) prev cur (by simpa using hp) (by simpa using hc))

/-- `merkle9chain.py`'s accumulator contains exactly the findings of every
adjacent pair, tagged with the loop position. -/
theorem M9.invalid_blocksAux_mem (H : String → String) (z : String) :
    ∀ l : List Block, ∀ n i : Nat, ∀ f : Finding,
      ((i, f) ∈ M9.invalid_blocksAux H z n l ↔
        ∃ j : Nat, i = n + j ∧ ∃ prev cur : Block,
          l.get? j = some prev ∧ l.get? (j + 1) = some cur ∧ findingAt H z prev cur f)
  | [] => by intro n i f; simp [M9.invalid_blocksAux]
  | [x] => by intro n i f; simp [M9.invalid_blocksAux]
  | p :: c :: rest => by
    intro n i f
    have IH := M9.invalid_blocksAux_mem H z (c :: rest) (n + 1) i f
    simp only [M9.invalid_blocksAux, List.mem_append, mem_ite_singleton, Prod.mk.injEq]
    rw [IH]
    constructor
    · rintro (((⟨hbad, rfl, rfl⟩ | ⟨hbad, rfl, rfl⟩) | ⟨hbad, rfl, rfl⟩) |
        ⟨j, rfl, prev, cur, hp, hc, hfa⟩)
      · exact ⟨0, by omega, p, c, rfl, rfl, hbad⟩
      · exact ⟨0, by omega, p, c, rfl, rfl, hbad⟩
      · exact ⟨0, by omega, p, c, rfl, rfl, hbad⟩
      · exact ⟨j + 1, by omega, prev, cur, by simpa using hp, by simpa using hc, hfa⟩
    · rintro ⟨j, rfl, prev, cur, hp, hc, hfa⟩
      cases j with
      | zero =>
        have hpp : p = prev := by simpa using hp
        have hcc : c = cur := by simpa using hc
        subst hpp
        subst hcc
        cases f with
        | hashInvalid => exact Or.inl (Or.inl (Or.inl ⟨hfa, by omega, rfl⟩))
        | linkInvalid => exact Or.inl (Or.inl (Or.inr ⟨hfa, by omega, rfl⟩))
        | powInvalid => exact Or.inl (Or.inr ⟨hfa, by omega, rfl⟩)
      | succ j =>
        exact Or.inr ⟨j, by omega, prev, cur, by simpa using hp, by simpa using hc, hfa⟩

/-- C1 (amended): `exam.py`'s `is_chain_valid` is true iff every per-block
check passes at every index `i ≥ 1` AND the recomputed Merkle root equals the
cache; `merkle9chain.py`'s `is_chain_valid` is true iff every per-block check
passes, the Merkle comparison having no effect on its verdict. -/
theorem chain_validity_characterization (H : String → String) (bc : Blockchain) :
    (Exam.is_chain_valid H bc = true ↔
      ((∀ i : Nat, 1 ≤ i → ∀ prev cur : Block,
          bc.chain.get? (i - 1) = some prev → bc.chain.get? i = some cur →
          blockOk H (zeroTarget bc.difficulty) prev cur) ∧
        MerkleTree.calculate_merkle_root H (bc.chain.map Block.hash) = bc.merkle_root)) ∧
    (M9.is_chain_valid H bc = true ↔
      (∀ i : Nat, 1 ≤ i → ∀ prev cur : Block,
        bc.chain.get? (i - 1) = some prev → bc.chain.get? i = some cur →
        blockOk H (zeroTarget bc.difficulty) prev cur)) := by
  have hchar := Exam.firstFinding_eq_none_iff H (zeroTarget bc.difficulty) bc.chain
  constructor
  · rw [pairs_shift]
    unfold Exam.is_chain_valid
    cases hf : Exam.firstFinding H (zeroTarget bc.difficulty) bc.chain with
    | some pr =>
      constructor
      · intro hfalse
        cases hfalse
      · rintro ⟨hP, _⟩
        have hnone := hchar.mpr hP
        rw [hf] at hnone
        cases hnone
    | none =>
      simp only [decide_eq_true_iff]
      constructor
      · intro hm
        exact ⟨hchar.mp hf, hm⟩
      · rintro ⟨_, hm⟩
        exact hm
  · rw [pairs_shift]
    unfold M9.is_chain_valid
    rw [List.isEmpty_iff]
    constructor
    · intro hnil j prev cur hp hc
      rw [blockOk_iff_no_finding]
      intro f hfa
      have hmem : (1 + j, f) ∈ M9.invalid_blocks H bc := by
        unfold M9.invalid_blocks
        rw [M9.invalid_blocksAux_mem]
        exact ⟨j, rfl, prev, cur, hp, hc, hfa⟩
      rw [M9.invalid_blocks] at hnil
      rw [M9.invalid_blocks, hnil] at hmem
      cases hmem
    · intro hP
      rw [List.eq_nil_iff_forall_not_mem]
      rintro ⟨i, f⟩ hmem
      unfold M9.invalid_blocks at hmem
      rw [M9.invalid_blocksAux_mem] at hmem
      obtain ⟨j, rfl, prev, cur, hp, hc, hfa⟩ := hmem
      have hok := hP j prev cur hp hc
      exact (blockOk_iff_no_finding H (zeroTarget bc.difficulty) prev cur).mp hok f hfa

/-- Counterexample to C1 as stated: on a one-block chain with a stale Merkle
cache there are no per-block findings but the recomputed root differs from
the cache, and `merkle9chain.py`'s `is_chain_valid` still answers true (its
Merkle mismatch is only printed); `exam.py`'s answers false. -/
theorem m9_valid_despite_merkle_mismatch :
    M9.is_chain_valid Hk bcSingle = true ∧
    MerkleTree.calculate_merkle_root Hk (bcSingle.chain.map Block.hash) ≠ bcSingle.merkle_root ∧
    Exam.is_chain_valid Hk bcSingle = false := by decide

/-- C2 (amended): `merkle9chain.py`'s finding list enumerates exactly the
`(block_index, problem_kind)` pairs present in the chain (all findings, all
indices `i ≥ 1`, no short-circuit), while `exam.py`'s validation reports at
most one finding. -/
theorem invalid_blocks_enumerates_findings (H : String → String) (bc : Blockchain)
    (i : Nat) (f : Finding) :
    ((i, f) ∈ M9.invalid_blocks H bc ↔
      (1 ≤ i ∧ ∃ prev cur : Block,
        bc.chain.get? (i - 1) = some prev ∧ bc.chain.get? i = some cur ∧
        findingAt H (zeroTarget bc.difficulty) prev cur f)) ∧
    (Exam.findings H bc).length ≤ 1 := by
  constructor
  · unfold M9.invalid_blocks
    rw [M9.invalid_blocksAux_mem]
    constructor
    · rintro ⟨j, rfl, prev, cur, hp, hc, hfa⟩
      refine ⟨by omega, prev, cur, ?_, ?_, hfa⟩
      · rw [show 1 + j - 1 = j from by omega]
        exact hp
      · rw [show 1 + j = j + 1 from by omega]
        exact hc
    · rintro ⟨hi, prev, cur, hp, hc, hfa⟩
      refine ⟨i - 1, by omega, prev, cur, hp, ?_, hfa⟩
      rw [show i - 1 + 1 = i from by omega]
      exact hc
  · unfold Exam.findings
    cases Exam.firstFinding H (zeroTarget bc.difficulty) bc.chain <;> simp

/-- Counterexample to C2 as stated: in a chain whose blocks 1 and 2 both fail
the hash check, `exam.py`'s validation reports only the finding at index 1
and never records the finding at index 2, which `merkle9chain.py` does. -/
theorem exam_validation_short_circuits :
    Exam.findings Hk bcTwoBad = [(1, Finding.hashInvalid)] ∧
    (2, Finding.hashInvalid) ∈ M9.invalid_blocks Hk bcTwoBad ∧
    (2, Finding.hashInvalid) ∉ Exam.findings Hk bcTwoBad := by decide

theorem tamperBlock_idem (H : String → String) (b : Block) :
    tamperBlock H (tamperBlock H b) = tamperBlock H b := rfl

theorem falsifyStep_length (H : String → String) (c : List Block) (bidx : Nat) :
    (falsifyStep H c bidx).length = c.length := by
  unfold falsifyStep
  cases c.get? bidx <;> simp

theorem falsifyStep_get? (H : String → String) (c : List Block) (bidx j : Nat) :
    (falsifyStep H c bidx).get? j =
      if j = bidx then (c.get? j).map (tamperBlock H) else c.get? j := by
  unfold falsifyStep
  by_cases hj : j = bidx
  · subst hj
    cases hb : c.get? j with
    | none => simp [hb, List.get?_eq_none.mp hb]
    | some b =>
      have hlt : j < c.length := by
        obtain ⟨h, _⟩ := List.get?_eq_some.mp hb
        exact h
      simp [hb, List.get?_eq_getElem?, List.getElem?_set, hlt]
  · cases hb : c.get? bidx with
    | none => simp [hj]
    | some b =>
      simp only [List.get?_eq_getElem?] at *
      rw [List.getElem?_set_ne (fun h => hj h.symm), if_neg hj]

theorem falsifyBlocks_length (H : String → String) :
    ∀ bl : List Nat, ∀ c : List Block, (falsifyBlocks H bl c).length = c.length := by
  intro bl
  induction bl with
  | nil => intro c; rfl
  | cons b rest ih =>
    intro c
    show (falsifyBlocks H rest (falsifyStep H c b)).length = c.length
    rw [ih, falsifyStep_length]

theorem falsifyBlocks_get? (H : String → String) :
    ∀ bl : List Nat, ∀ c : List Block, ∀ j : Nat,
      (falsifyBlocks H bl c).get? j =
        if j ∈ bl then (c.get? j).map (tamperBlock H) else c.get? j := by
  intro bl
  induction bl with
  | nil => intro c j; simp [falsifyBlocks]
  | cons b rest ih =>
    intro c j
    show (falsifyBlocks H rest (falsifyStep H c b)).get? j = _
    rw [ih, falsifyStep_get?]
    by_cases hb : j = b
    · subst hb
      by_cases hr : j ∈ rest
      · simp only [hr, if_true, if_pos rfl, List.mem_cons, true_or, Option.map_map]
        cases c.get? j <;> simp [tamperBlock_idem]
      · simp [hr, List.mem_cons]
    · simp [List.mem_cons, hb]

theorem corrupt_one_chain (H : String → String) (bl : List Nat) (bc : Blockchain) :
    (Network.corrupt_one H bl bc).chain = falsifyBlocks H bl bc.chain := rfl

theorem corrupt_one_difficulty (H : String → String) (bl : List Nat) (bc : Blockchain) :
    (Network.corrupt_one H bl bc).difficulty = bc.difficulty := rfl

theorem corrupt_one_merkle (H : String → String) (bl : List Nat) (bc : Blockchain) :
    (Network.corrupt_one H bl bc).merkle_root =
      MerkleTree.calculate_merkle_root H ((Network.corrupt_one H bl bc).chain.map Block.hash) :=
  rfl

theorem falsifyBlocks_idem (H : String → String) (bl : List Nat) (c : List Block) :
    falsifyBlocks H bl (falsifyBlocks H bl c) = falsifyBlocks H bl c := by
  apply List.ext_get?
  intro n
  rw [falsifyBlocks_get?, falsifyBlocks_get?]
  by_cases hn : n ∈ bl
  · simp only [hn, if_true, Option.map_map]
    cases c.get? n <;> simp [tamperBlock_idem]
  · simp [hn]

theorem corrupt_one_idem (H : String → String) (bl : List Nat) (bc : Blockchain) :
    Network.corrupt_one H bl (Network.corrupt_one H bl bc) = Network.corrupt_one H bl bc := by
  unfold Network.corrupt_one Blockchain.compute_merkle_root
  simp [falsifyBlocks_idem]

theorem corrupt_nodes_ok (H : String → String) (bl : List Nat) :
    ∀ idxs : List Nat, ∀ net : Network, (∀ i ∈ idxs, i < net.nodes.length) →
      ∃ net' : Network, Network.corrupt_nodes H bl idxs net = Except.ok net' ∧
        net'.difficulty = net.difficulty ∧
        net'.nodes.length = net.nodes.length ∧
        ∀ k : Nat, net'.nodes.get? k =
          (if k ∈ idxs then (net.nodes.get? k).map (Network.corrupt_one H bl)
           else net.nodes.get? k) := by
  intro idxs
  induction idxs with
  | nil =>
    intro net _
    exact ⟨net, rfl, rfl, rfl, fun k => by simp⟩
  | cons idx rest ih =>
    intro net hin
    have hlt : idx < net.nodes.length := hin idx (by simp)
    obtain ⟨bc, hbc⟩ : ∃ bc, net.nodes.get? idx = some bc := by
      cases hx : net.nodes.get? idx with
      | none => exact absurd (List.get?_eq_none.mp hx) (by omega)
      | some bc => exact ⟨bc, rfl⟩
    have hstep : Network.corrupt_nodes H bl (idx :: rest) net =
        Network.corrupt_nodes H bl rest
          { net with nodes := net.nodes.set idx (Network.corrupt_one H bl bc) } := by
      conv_lhs => rw [Network.corrupt_nodes]
      rw [hbc]
    obtain ⟨net', hok, hdiff, hlen, hget⟩ := ih
      { net with nodes := net.nodes.set idx (Network.corrupt_one H bl bc) }
      (by intro i hi; simp only [List.length_set]; exact hin i (by simp [hi]))
    refine ⟨net', hstep ▸ hok, by simpa using hdiff, by simpa using hlen, ?_⟩
    intro k
    have hset : (net.nodes.set idx (Network.corrupt_one H bl bc)).get? k =
        (if k = idx then (net.nodes.get? k).map (Network.corrupt_one H bl)
         else net.nodes.get? k) := by
      by_cases hk : k = idx
      · subst hk
        rw [if_pos rfl, hbc, List.get?_eq_getElem?, List.getElem?_set, if_pos rfl, if_pos hlt]
        rfl
      · rw [if_neg hk, List.get?_eq_getElem?, List.getElem?_set_ne (fun h => hk h.symm),
          ← List.get?_eq_getElem?]
    rw [hget k]
    simp only [hset]
    by_cases hk : k = idx
    · subst hk
      by_cases hr : k ∈ rest
      · simp only [hr, if_true, if_pos rfl, List.mem_cons, true_or, Option.map_map]
        cases net.nodes.get? k <;> simp [corrupt_one_idem]
      · simp [hr, List.mem_cons]
    · simp [List.mem_cons, hk]

/-- C3: a corrupt call whose replica targets are all in range succeeds; each
targeted block of each targeted replica ends with the fixed tamper marker as
data and with the digest of its new content as hash, its index, timestamp,
nonce and previous_hash untouched; out-of-range block targets are skipped;
untargeted blocks and untargeted replicas are unchanged; and each targeted
replica's Merkle cache equals the root of its current hash sequence. -/
theorem corrupt_nodes_effect (H : String → String) (net : Network)
    (idxs bl : List Nat) (hin : ∀ i ∈ idxs, i < net.nodes.length) :
    (∀ b : Block, (tamperBlock H b).data = "FALSIFIED DATA" ∧
      (tamperBlock H b).hash = Block.calculate_hash H (tamperBlock H b) ∧
      (tamperBlock H b).index = b.index ∧ (tamperBlock H b).timestamp = b.timestamp ∧
      (tamperBlock H b).nonce = b.nonce ∧ (tamperBlock H b).previous_hash = b.previous_hash) ∧
    (∀ bc : Blockchain,
      (Network.corrupt_one H bl bc).difficulty = bc.difficulty ∧
      (Network.corrupt_one H bl bc).chain.length = bc.chain.length ∧
      (∀ j : Nat, j ∉ bl → (Network.corrupt_one H bl bc).chain.get? j = bc.chain.get? j) ∧
      (∀ j : Nat, j ∈ bl →
        (Network.corrupt_one H bl bc).chain.get? j = (bc.chain.get? j).map (tamperBlock H)) ∧
      (Network.corrupt_one H bl bc).merkle_root =
        MerkleTree.calculate_merkle_root H
          ((Network.corrupt_one H bl bc).chain.map Block.hash)) ∧
    (∃ net' : Network, Network.corrupt_nodes H bl idxs net = Except.ok net' ∧
      net'.difficulty = net.difficulty ∧
      net'.nodes.length = net.nodes.length ∧
      (∀ k : Nat, k ∉ idxs → net'.nodes.get? k = net.nodes.get? k) ∧
      (∀ k : Nat, k ∈ idxs →
        net'.nodes.get? k = (net.nodes.get? k).map (Network.corrupt_one H bl))) := by
  refine ⟨?_, ?_, ?_⟩
  · intro b
    exact ⟨rfl, rfl, rfl, rfl, rfl, rfl⟩
  · intro bc
    refine ⟨rfl, ?_, ?_, ?_, rfl⟩
    · rw [corrupt_one_chain, falsifyBlocks_length]
    · intro j hj
      rw [corrupt_one_chain, falsifyBlocks_get?, if_neg hj]
    · intro j hj
      rw [corrupt_one_chain, falsifyBlocks_get?, if_pos hj]
  · obtain ⟨net', hok, hd, hl, hget⟩ := corrupt_nodes_ok H bl idxs net hin
    exact ⟨net', hok, hd, hl,
      fun k hk => by rw [hget k, if_neg hk],
      fun k hk => by rw [hget k, if_pos hk]⟩

/-- Out-of-range replica target: the raise happens at that point of the
batch, with all earlier (in-range) targets already corrupted. -/
theorem corrupt_nodes_error_aux (H : String → String) (bl : List Nat) :
    ∀ pre : List Nat, ∀ net : Network, ∀ bad : Nat, ∀ rest : List Nat,
      (∀ i ∈ pre, i < net.nodes.length) → net.nodes.length ≤ bad →
      ∃ net' : Network, Network.corrupt_nodes H bl pre net = Except.ok net' ∧
        Network.corrupt_nodes H bl (pre ++ bad :: rest) net = Except.error net' := by
  intro pre
  induction pre with
  | nil =>
    intro net bad rest _ hbad
    refine ⟨net, rfl, ?_⟩
    have hnone : net.nodes.get? bad = none := List.get?_eq_none.mpr hbad
    show Network.corrupt_nodes H bl (bad :: rest) net = Except.error net
    conv_lhs => rw [Network.corrupt_nodes]
    rw [hnone]
  | cons p pre ih =>
    intro net bad rest hpre hbad
    have hlt : p < net.nodes.length := hpre p (by simp)
    obtain ⟨bc, hbc⟩ : ∃ bc, net.nodes.get? p = some bc := by
      cases hx : net.nodes.get? p with
      | none => exact absurd (List.get?_eq_none.mp hx) (by omega)
      | some bc => exact ⟨bc, rfl⟩
    obtain ⟨net', hok, herr⟩ := ih
      { net with nodes := net.nodes.set p (Network.corrupt_one H bl bc) } bad rest
      (fun i hi => by simp only [List.length_set]; exact hpre i (by simp [hi]))
      (by simpa using hbad)
    refine ⟨net', ?_, ?_⟩
    · conv_lhs => rw [Network.corrupt_nodes]
      rw [hbc]
      exact hok
    · show Network.corrupt_nodes H bl (p :: (pre ++ bad :: rest)) net = Except.error net'
      conv_lhs => rw [Network.corrupt_nodes]
      rw [hbc]
      exact herr

/-- C10: replica indices are not range-checked — an out-of-range replica
index makes `corrupt_nodes` raise (model: `Except.error`), and the carried
state shows the earlier in-range targets already corrupted; by contrast an
out-of-range block index is a silent no-op of the inner loop. -/
theorem corrupt_nodes_replica_range_error (H : String → String) (net : Network)
    (bl pre rest : List Nat) (bad : Nat)
    (hpre : ∀ i ∈ pre, i < net.nodes.length) (hbad : net.nodes.length ≤ bad) :
    (∃ net' : Network, Network.corrupt_nodes H bl pre net = Except.ok net' ∧
      Network.corrupt_nodes H bl (pre ++ bad :: rest) net = Except.error net') ∧
    (∀ c : List Block, ∀ bidx : Nat, c.length ≤ bidx → falsifyStep H c bidx = c) := by
  refine ⟨corrupt_nodes_error_aux H bl pre net bad rest hpre hbad, ?_⟩
  intro c bidx hc
  unfold falsifyStep
  rw [List.get?_eq_none.mpr hc]

/-- Witness for C3 on the concrete one-replica network `netOne`. -/
theorem corrupt_nodes_effect_witness :
    (∀ i ∈ ([0] : List Nat), i < netOne.nodes.length) ∧
    ((∀ b : Block, (tamperBlock Hk b).data = "FALSIFIED DATA" ∧
      (tamperBlock Hk b).hash = Block.calculate_hash Hk (tamperBlock Hk b) ∧
      (tamperBlock Hk b).index = b.index ∧ (tamperBlock Hk b).timestamp = b.timestamp ∧
      (tamperBlock Hk b).nonce = b.nonce ∧ (tamperBlock Hk b).previous_hash = b.previous_hash) ∧
    (∀ bc : Blockchain,
      (Network.corrupt_one Hk [0] bc).difficulty = bc.difficulty ∧
      (Network.corrupt_one Hk [0] bc).chain.length = bc.chain.length ∧
      (∀ j : Nat, j ∉ ([0] : List Nat) →
        (Network.corrupt_one Hk [0] bc).chain.get? j = bc.chain.get? j) ∧
      (∀ j : Nat, j ∈ ([0] : List Nat) →
        (Network.corrupt_one Hk [0] bc).chain.get? j = (bc.chain.get? j).map (tamperBlock Hk)) ∧
      (Network.corrupt_one Hk [0] bc).merkle_root =
        MerkleTree.calculate_merkle_root Hk
          ((Network.corrupt_one Hk [0] bc).chain.map Block.hash)) ∧
    (∃ net' : Network, Network.corrupt_nodes Hk [0] [0] netOne = Except.ok net' ∧
      net'.difficulty = netOne.difficulty ∧
      net'.nodes.length = netOne.nodes.length ∧
      (∀ k : Nat, k ∉ ([0] : List Nat) → net'.nodes.get? k = netOne.nodes.get? k) ∧
      (∀ k : Nat, k ∈ ([0] : List Nat) →
        net'.nodes.get? k = (netOne.nodes.get? k).map (Network.corrupt_one Hk [0])))) :=
  ⟨by decide, corrupt_nodes_effect Hk netOne [0] [0] (by decide)⟩

/-- Witness for C10 on `netOne` with the out-of-range replica index 5. -/
theorem corrupt_nodes_replica_range_error_witness :
    (∀ i ∈ ([0] : List Nat), i < netOne.nodes.length) ∧ netOne.nodes.length ≤ 5 ∧
    ((∃ net' : Network, Network.corrupt_nodes Hk [0] [0] netOne = Except.ok net' ∧
       Network.corrupt_nodes Hk [0] ([0] ++ 5 :: []) netOne = Except.error net') ∧
     (∀ c : List Block, ∀ bidx : Nat, c.length ≤ bidx → falsifyStep Hk c bidx = c)) :=
  ⟨by decide, by decide,
    corrupt_nodes_replica_range_error Hk netOne [0] [0] [] 5 (by decide) (by decide)⟩

/-- C9: an even node count fails the construction assertion at once — no
Network value is produced at all; with an odd node count construction
proceeds and succeeds whenever the replica building (mining with the given
fuel) succeeds. -/
theorem network_construct_parity (H : String → String)
    (fuel node_count difficulty clock : Nat) :
    (node_count % 2 = 0 → Network.construct H fuel node_count difficulty clock = none) ∧
    (node_count % 2 = 1 →
      Network.buildNodes H fuel difficulty node_count clock ≠ none →
      ∃ net : Network, Network.construct H fuel node_count difficulty clock = some net ∧
        net.difficulty = difficulty) := by
  constructor
  · intro he
    unfold Network.construct
    rw [if_neg (by omega)]
  · intro ho hb
    unfold Network.construct
    rw [if_pos ho]
    cases hx : Network.buildNodes H fuel difficulty node_count clock with
    | none => exact absurd hx hb
    | some p =>
      obtain ⟨nodes, c⟩ := p
      exact ⟨⟨nodes, difficulty⟩, rfl, rfl⟩

/-- Witness for C9: an even count (2) yields no network, an odd count (1)
at difficulty 0 builds one. -/
theorem network_construct_parity_witness :
    ((2 : Nat) % 2 = 0 ∧ Network.construct Hk 1 2 0 0 = none) ∧
    ((1 : Nat) % 2 = 1 ∧ Network.buildNodes Hk 1 0 1 0 ≠ none ∧
      ∃ net : Network, Network.construct Hk 1 1 0 0 = some net ∧ net.difficulty = 0) :=
  ⟨⟨by decide, (network_construct_parity Hk 1 2 0 0).1 (by decide)⟩,
   ⟨by decide, by decide, (network_construct_parity Hk 1 1 0 0).2 (by decide) (by decide)⟩⟩
